import Mathlib

set_option maxRecDepth 100000

/-!
Verification development for a small Rust proof-of-work blockchain
(modules: block.rs, blockchain.rs, proofofwork.rs, transaction.rs,
bcdb.rs, base58.rs, utils.rs).  Byte strings are modelled as `List Nat`
(each entry a byte value), machine integers as `Nat`/`Int` with explicit
reductions modulo powers of two, and fallible / panicking code as
`Option` / `Except`.
-/

/-- Little-endian byte encoding: `k` bytes of `n` (low byte first),
mirroring `to_le_bytes` on the unsigned value. -/
def leBytes : Nat → Nat → List Nat
  | 0, _ => []
  | k + 1, n => n % 256 :: leBytes k (n / 256)

/-- Value of a little-endian byte list. -/
def leVal : List Nat → Nat
  | [] => 0
  | b :: bs => b + 256 * leVal bs

/-- Big-endian byte encoding of `n` on `k` bytes (`to_be_bytes`). -/
def beBytes (k n : Nat) : List Nat := (leBytes k n).reverse

/-- Value of a big-endian byte list (`BigUint::from_bytes_be`). -/
def beVal (l : List Nat) : Nat := l.foldl (fun a b => a * 256 + b) 0

/-- Concatenation of the images of `f`, like `flat_map`. -/
def catMap (f : α → List β) : List α → List β
  | [] => []
  | a :: t => f a ++ catMap f t

theorem leBytes_length (k n : Nat) : (leBytes k n).length = k := by
  induction k generalizing n with
  | zero => rfl
  | succ k ih => simp [leBytes, ih]

theorem beBytes_length (k n : Nat) : (beBytes k n).length = k := by
  simp [beBytes, leBytes_length]

theorem leVal_leBytes (k n : Nat) (h : n < 256 ^ k) :
    leVal (leBytes k n) = n := by
  induction k generalizing n with
  | zero =>
    simp [leBytes, leVal]
    omega
  | succ k ih =>
    have hlt : n / 256 < 256 ^ k := by
      have : 256 ^ (k + 1) = 256 ^ k * 256 := by ring
      omega
    simp [leBytes, leVal, ih (n / 256) hlt]
    omega

/-! ### SHA-256 (concrete, executable)

The Rust code uses the `sha2` crate (`utils::compute_sha256`); the
function is reimplemented here bit-for-bit over `Nat` words reduced
modulo `2 ^ 32`. -/

/-- The 64 SHA-256 round constants. -/
def shaK : List Nat :=
  [1116352408, 1899447441, 3049323471, 3921009573, 961987163,
   1508970993, 2453635748, 2870763221, 3624381080, 310598401,
   607225278, 1426881987, 1925078388, 2162078206, 2614888103,
   3248222580, 3835390401, 4022224774, 264347078, 604807628,
   770255983, 1249150122, 1555081692, 1996064986, 2554220882,
   2821834349, 2952996808, 3210313671, 3336571891, 3584528711,
   113926993, 338241895, 666307205, 773529912, 1294757372,
   1396182291, 1695183700, 1986661051, 2177026350, 2456956037,
   2730485921, 2820302411, 3259730800, 3345764771, 3516065817,
   3600352804, 4094571909, 275423344, 430227734, 506948616,
   659060556, 883997877, 958139571, 1322822218, 1537002063,
   1747873779, 1955562222, 2024104815, 2227730452, 2361852424,
   2428436474, 2756734187, 3204031479, 3329325298]

/-- Rotate a 32-bit word right by `r`. -/
def rotr (r x : Nat) : Nat := x / 2 ^ r + x % 2 ^ r * 2 ^ (32 - r)

/-- The eight-word SHA-256 working state. -/
structure H8 where
  a : Nat
  b : Nat
  c : Nat
  d : Nat
  e : Nat
  f : Nat
  g : Nat
  h : Nat
deriving DecidableEq, Repr

/-- Initial SHA-256 hash state. -/
def shaH0 : H8 :=
  { a := 0x6a09e667, b := 0xbb67ae85, c := 0x3c6ef372, d := 0xa54ff53a,
    e := 0x510e527f, f := 0x9b05688c, g := 0x1f83d9ab, h := 0x5be0cd19 }

/-- Parse a byte list into big-endian 32-bit words. -/
def toWordsBE : List Nat → List Nat
  | b0 :: b1 :: b2 :: b3 :: rest =>
    (((b0 * 256 + b1) * 256 + b2) * 256 + b3) :: toWordsBE rest
  | _ => []

/-- Message-schedule small sigma 0. -/
def ssig0 (x : Nat) : Nat := (rotr 7 x ^^^ rotr 18 x ^^^ x / 2 ^ 3) % 2 ^ 32

/-- Message-schedule small sigma 1. -/
def ssig1 (x : Nat) : Nat := (rotr 17 x ^^^ rotr 19 x ^^^ x / 2 ^ 10) % 2 ^ 32

/-- Extend the 16-word block to the 64-word message schedule. -/
def shaExtend : Nat → List Nat → List Nat
  | 0, w => w
  | n + 1, w =>
    let t := w.length
    let x := (ssig1 (w.getD (t - 2) 0) + w.getD (t - 7) 0 +
              ssig0 (w.getD (t - 15) 0) + w.getD (t - 16) 0) % 2 ^ 32
    shaExtend n (w ++ [x])

/-- One SHA-256 round; `wk` is `W[t] + K[t]`. -/
def shaRound (st : H8) (wk : Nat) : H8 :=
  let s1 := (rotr 6 st.e ^^^ rotr 11 st.e ^^^ rotr 25 st.e) % 2 ^ 32
  let ch := (st.e &&& st.f) ^^^ ((st.e ^^^ 0xffffffff) &&& st.g)
  let t1 := (st.h + s1 + ch + wk) % 2 ^ 32
  let s0 := (rotr 2 st.a ^^^ rotr 13 st.a ^^^ rotr 22 st.a) % 2 ^ 32
  let mj := (st.a &&& st.b) ^^^ (st.a &&& st.c) ^^^ (st.b &&& st.c)
  let t2 := (s0 + mj) % 2 ^ 32
  { a := (t1 + t2) % 2 ^ 32, b := st.a, c := st.b, d := st.c,
    e := (st.d + t1) % 2 ^ 32, f := st.e, g := st.f, h := st.g }

/-- Compress one 64-byte block into the running state. -/
def shaCompress (st : H8) (blockBytes : List Nat) : H8 :=
  let w := shaExtend 48 (toWordsBE blockBytes)
  let r := (List.zipWith (fun x k => x + k) w shaK).foldl shaRound st
  { a := (st.a + r.a) % 2 ^ 32, b := (st.b + r.b) % 2 ^ 32,
    c := (st.c + r.c) % 2 ^ 32, d := (st.d + r.d) % 2 ^ 32,
    e := (st.e + r.e) % 2 ^ 32, f := (st.f + r.f) % 2 ^ 32,
    g := (st.g + r.g) % 2 ^ 32, h := (st.h + r.h) % 2 ^ 32 }

/-- SHA-256 padding: `0x80`, zeros, then the bit length on 8 bytes. -/
def shaPad (msg : List Nat) : List Nat :=
  msg ++ 0x80 :: List.replicate ((64 - (msg.length + 9) % 64) % 64) 0 ++
    beBytes 8 (msg.length * 8)

/-- Split a byte list into 64-byte chunks (fuel-driven recursion). -/
def chunks64 : Nat → List Nat → List (List Nat)
  | 0, _ => []
  | fuel + 1, s =>
    match s with
    | [] => []
    | _ => s.take 64 :: chunks64 fuel (s.drop 64)

/-- SHA-256 of a byte list (`utils::compute_sha256`). -/
def sha256 (msg : List Nat) : List Nat :=
  let padded := shaPad msg
  let fin := (chunks64 padded.length padded).foldl shaCompress shaH0
  beBytes 4 fin.a ++ beBytes 4 fin.b ++ beBytes 4 fin.c ++ beBytes 4 fin.d ++
    beBytes 4 fin.e ++ beBytes 4 fin.f ++ beBytes 4 fin.g ++ beBytes 4 fin.h

theorem sha256_length (msg : List Nat) : (sha256 msg).length = 32 := by
  simp [sha256, beBytes_length]

example : sha256 [] =
    [0xe3, 0xb0, 0xc4, 0x42, 0x98, 0xfc, 0x1c, 0x14,
     0x9a, 0xfb, 0xf4, 0xc8, 0x99, 0x6f, 0xb9, 0x24,
     0x27, 0xae, 0x41, 0xe4, 0x64, 0x9b, 0x93, 0x4c,
     0xa4, 0x95, 0x99, 0x1b, 0x78, 0x52, 0xb8, 0x55] := by decide

example : sha256 [0x61, 0x62, 0x63] =
    [0xba, 0x78, 0x16, 0xbf, 0x8f, 0x01, 0xcf, 0xea,
     0x41, 0x41, 0x40, 0xde, 0x5d, 0xae, 0x22, 0x23,
     0xb0, 0x03, 0x61, 0xa3, 0x96, 0x17, 0x7a, 0x9c,
     0xb4, 0x10, 0xff, 0x61, 0xf2, 0x00, 0x15, 0xad] := by decide

/-! ### UTXO data model (transaction.rs, block.rs)

Field and type names follow the Rust structs.  `i32`/`i64` fields are
`Int`, `u32` is `Nat`, byte vectors are `List Nat`. -/

/-- `TXInput {txid, vout: i32, signature, pub_key}`. -/
structure TXInput where
  txid : List Nat
  vout : Int
  signature : List Nat
  pub_key : List Nat
deriving DecidableEq, Repr

/-- `TXOutput {value: i32, pub_key_hash}`. -/
structure TXOutput where
  value : Int
  pub_key_hash : List Nat
deriving DecidableEq, Repr

/-- `Transaction {id, vin, vout}`. -/
structure Transaction where
  id : List Nat
  vin : List TXInput
  vout : List TXOutput
deriving DecidableEq, Repr

/-- `Block {time_stamp: i64, transaction, prev_block_hash, hash, nonce: u32}`. -/
structure Block where
  time_stamp : Int
  transaction : List Transaction
  prev_block_hash : List Nat
  hash : List Nat
  nonce : Nat
deriving DecidableEq, Repr

/-! ### bincode encoding (legacy config used by `bincode::serialize`)

Fixed-width little-endian integers, `u64` length prefixes for
sequences, struct fields in declaration order. -/

/-- Encode an `iN` value (`k` bytes) two's-complement little-endian. -/
def wrI (k : Nat) (v : Int) : List Nat := leBytes k (v % (256 ^ k : Nat)).toNat

/-- Encode a byte vector: `u64` length then the raw bytes. -/
def wrBytes (bs : List Nat) : List Nat := leBytes 8 bs.length ++ bs

/-- Encode a sequence: `u64` length then each element. -/
def wrList (f : α → List Nat) (xs : List α) : List Nat :=
  leBytes 8 xs.length ++ catMap f xs

/-- bincode encoding of `TXInput`. -/
def wrInput (i : TXInput) : List Nat :=
  wrBytes i.txid ++ wrI 4 i.vout ++ wrBytes i.signature ++ wrBytes i.pub_key

/-- bincode encoding of `TXOutput`. -/
def wrOutput (o : TXOutput) : List Nat :=
  wrI 4 o.value ++ wrBytes o.pub_key_hash

/-- bincode encoding of `Transaction` (`Transaction::serialize`). -/
def wrTx (t : Transaction) : List Nat :=
  wrBytes t.id ++ wrList wrInput t.vin ++ wrList wrOutput t.vout

/-- bincode encoding of `Block` (`Block::serialize`). -/
def wrBlock (b : Block) : List Nat :=
  wrI 8 b.time_stamp ++ wrList wrTx b.transaction ++
    wrBytes b.prev_block_hash ++ wrBytes b.hash ++ leBytes 4 b.nonce

/-- Read `k` raw bytes, returning them and the rest of the stream. -/
def rdRaw (k : Nat) (s : List Nat) : Option (List Nat × List Nat) :=
  if k ≤ s.length then some (s.take k, s.drop k) else none

/-- Read a `k`-byte little-endian unsigned integer. -/
def rdU (k : Nat) (s : List Nat) : Option (Nat × List Nat) :=
  (rdRaw k s).map fun p => (leVal p.1, p.2)

/-- Two's-complement reinterpretation of a `k`-byte unsigned value. -/
def twos (k n : Nat) : Int := if n < 256 ^ k / 2 then (n : Int) else (n : Int) - (256 ^ k : Nat)

/-- Read a `k`-byte little-endian signed integer. -/
def rdI (k : Nat) (s : List Nat) : Option (Int × List Nat) :=
  (rdU k s).map fun p => (twos k p.1, p.2)

/-- Read a length-prefixed byte vector. -/
def rdBytes (s : List Nat) : Option (List Nat × List Nat) :=
  (rdU 8 s).bind fun p => rdRaw p.1 p.2

/-- Read `n` consecutive elements with the element reader `rd`. -/
def rdCount (rd : List Nat → Option (α × List Nat)) :
    Nat → List Nat → Option (List α × List Nat)
  | 0, s => some ([], s)
  | n + 1, s =>
    (rd s).bind fun p => (rdCount rd n p.2).map fun q => (p.1 :: q.1, q.2)

/-- Read a length-prefixed sequence. -/
def rdList (rd : List Nat → Option (α × List Nat)) (s : List Nat) :
    Option (List α × List Nat) :=
  (rdU 8 s).bind fun p => rdCount rd p.1 p.2

/-- bincode decoding of `TXInput`. -/
def rdInput (s : List Nat) : Option (TXInput × List Nat) :=
  (rdBytes s).bind fun p1 =>
  (rdI 4 p1.2).bind fun p2 =>
  (rdBytes p2.2).bind fun p3 =>
  (rdBytes p3.2).map fun p4 =>
  ({ txid := p1.1, vout := p2.1, signature := p3.1, pub_key := p4.1 }, p4.2)

/-- bincode decoding of `TXOutput`. -/
def rdOutput (s : List Nat) : Option (TXOutput × List Nat) :=
  (rdI 4 s).bind fun p1 =>
  (rdBytes p1.2).map fun p2 =>
  ({ value := p1.1, pub_key_hash := p2.1 }, p2.2)

/-- bincode decoding of `Transaction`. -/
def rdTx (s : List Nat) : Option (Transaction × List Nat) :=
  (rdBytes s).bind fun p1 =>
  (rdList rdInput p1.2).bind fun p2 =>
  (rdList rdOutput p2.2).map fun p3 =>
  ({ id := p1.1, vin := p2.1, vout := p3.1 }, p3.2)

/-- bincode decoding of `Block` (`Block::deserialize`). -/
def rdBlock (s : List Nat) : Option (Block × List Nat) :=
  (rdI 8 s).bind fun p1 =>
  (rdList rdTx p1.2).bind fun p2 =>
  (rdBytes p2.2).bind fun p3 =>
  (rdBytes p3.2).bind fun p4 =>
  (rdU 4 p4.2).map fun p5 =>
  ({ time_stamp := p1.1, transaction := p2.1, prev_block_hash := p3.1,
     hash := p4.1, nonce := p5.1 }, p5.2)

/-- `Block::deserialize` as used by the chain: parse the value from the
front of the byte stream. -/
def deserializeBlock (s : List Nat) : Option Block := (rdBlock s).map Prod.fst

/-! ### Round-trip lemmas for the bincode model -/

theorem rdRaw_append (b r : List Nat) : rdRaw b.length (b ++ r) = some (b, r) := by
  simp [rdRaw, List.take_left, List.drop_left]

theorem rdU_append (k n : Nat) (r : List Nat) (h : n < 256 ^ k) :
    rdU k (leBytes k n ++ r) = some (n, r) := by
  have hb := rdRaw_append (leBytes k n) r
  rw [leBytes_length] at hb
  simp [rdU, hb, leVal_leBytes k n h]

theorem twos_wrI (k : Nat) (v : Int) (hk : 0 < k)
    (h1 : -(256 ^ k / 2 : Nat) ≤ v) (h2 : v < (256 ^ k / 2 : Nat)) :
    twos k (v % (256 ^ k : Nat)).toNat = v := by
  have hdvd : (2 : Nat) ∣ 256 ^ k := dvd_pow (by norm_num) (by omega)
  have hMH : 256 ^ k / 2 * 2 = 256 ^ k := Nat.div_mul_cancel hdvd
  have hMpos : (0 : Int) < ((256 ^ k : Nat) : Int) := by positivity
  have hge : (0 : Int) ≤ v % ((256 ^ k : Nat) : Int) := Int.emod_nonneg v (by omega)
  have hlt : v % ((256 ^ k : Nat) : Int) < ((256 ^ k : Nat) : Int) :=
    Int.emod_lt_of_pos v hMpos
  have key : v % ((256 ^ k : Nat) : Int) = v ∨
      v % ((256 ^ k : Nat) : Int) = v + ((256 ^ k : Nat) : Int) := by
    rcases le_or_lt 0 v with hv | hv
    · left
      exact Int.emod_eq_of_lt hv (by omega)
    · right
      have heq : (v + ((256 ^ k : Nat) : Int)) % ((256 ^ k : Nat) : Int) =
          v % ((256 ^ k : Nat) : Int) := by
        simp
      rw [← heq]
      exact Int.emod_eq_of_lt (by omega) (by omega)
  unfold twos
  split
  · omega
  · omega

theorem rdI_append (k : Nat) (v : Int) (r : List Nat) (hk : 0 < k)
    (h1 : -(256 ^ k / 2 : Nat) ≤ v) (h2 : v < (256 ^ k / 2 : Nat)) :
    rdI k (wrI k v ++ r) = some (v, r) := by
  have hMpos : (0 : Int) < ((256 ^ k : Nat) : Int) := by positivity
  have hge := Int.emod_nonneg v (by omega : ((256 ^ k : Nat) : Int) ≠ 0)
  have hlt := Int.emod_lt_of_pos v hMpos
  have hmod : (v % (256 ^ k : Nat)).toNat < 256 ^ k := by omega
  have h := rdU_append k (v % (256 ^ k : Nat)).toNat r hmod
  unfold rdI wrI
  rw [h]
  have ht := twos_wrI k v hk h1 h2
  push_cast at ht
  simp [ht]

theorem rdBytes_append (bs r : List Nat) (h : bs.length < 2 ^ 64) :
    rdBytes (wrBytes bs ++ r) = some (bs, r) := by
  have h8 : bs.length < 256 ^ 8 := by norm_num at h ⊢; omega
  unfold rdBytes wrBytes
  rw [List.append_assoc, rdU_append 8 bs.length (bs ++ r) h8]
  simpa using rdRaw_append bs r

theorem rdCount_append (rd : List Nat → Option (α × List Nat)) (f : α → List Nat)
    (xs : List α) (r : List Nat)
    (hx : ∀ x ∈ xs, ∀ s, rd (f x ++ s) = some (x, s)) :
    rdCount rd xs.length (catMap f xs ++ r) = some (xs, r) := by
  induction xs with
  | nil => simp [rdCount, catMap]
  | cons a t ih =>
    have ha := hx a (by simp) (catMap f t ++ r)
    rw [catMap, List.length_cons, List.append_assoc]
    unfold rdCount
    rw [ha]
    simp [ih fun x hxt s => hx x (by simp [hxt]) s]

theorem rdList_append (rd : List Nat → Option (α × List Nat)) (f : α → List Nat)
    (xs : List α) (r : List Nat) (hlen : xs.length < 2 ^ 64)
    (hx : ∀ x ∈ xs, ∀ s, rd (f x ++ s) = some (x, s)) :
    rdList rd (wrList f xs ++ r) = some (xs, r) := by
  have h8 : xs.length < 256 ^ 8 := by norm_num at hlen ⊢; omega
  unfold rdList wrList
  rw [List.append_assoc, rdU_append 8 xs.length (catMap f xs ++ r) h8]
  simpa using rdCount_append rd f xs r hx

/-- Representation invariant for an `i32` value. -/
def i32WF (v : Int) : Prop := -(256 ^ 4 / 2 : Nat) ≤ v ∧ v < (256 ^ 4 / 2 : Nat)

/-- Representation invariant for an `i64` value. -/
def i64WF (v : Int) : Prop := -(256 ^ 8 / 2 : Nat) ≤ v ∧ v < (256 ^ 8 / 2 : Nat)

/-- Representation invariant for a `TXInput`. -/
def inputWF (i : TXInput) : Prop :=
  i.txid.length < 2 ^ 64 ∧ i32WF i.vout ∧
    i.signature.length < 2 ^ 64 ∧ i.pub_key.length < 2 ^ 64

/-- Representation invariant for a `TXOutput`. -/
def outputWF (o : TXOutput) : Prop :=
  i32WF o.value ∧ o.pub_key_hash.length < 2 ^ 64

/-- Representation invariant for a `Transaction`. -/
def txWF (t : Transaction) : Prop :=
  t.id.length < 2 ^ 64 ∧ t.vin.length < 2 ^ 64 ∧ t.vout.length < 2 ^ 64 ∧
    (∀ i ∈ t.vin, inputWF i) ∧ (∀ o ∈ t.vout, outputWF o)

/-- Representation invariant for a `Block`: every machine-integer field
is in range and every sequence fits its `u64` length prefix. -/
def blockWF (b : Block) : Prop :=
  i64WF b.time_stamp ∧ b.transaction.length < 2 ^ 64 ∧
    (∀ t ∈ b.transaction, txWF t) ∧ b.prev_block_hash.length < 2 ^ 64 ∧
    b.hash.length < 2 ^ 64 ∧ b.nonce < 2 ^ 32

instance (v : Int) : Decidable (i32WF v) := by unfold i32WF; infer_instance

instance (v : Int) : Decidable (i64WF v) := by unfold i64WF; infer_instance

instance (i : TXInput) : Decidable (inputWF i) := by unfold inputWF; infer_instance

instance (o : TXOutput) : Decidable (outputWF o) := by unfold outputWF; infer_instance

instance (t : Transaction) : Decidable (txWF t) := by unfold txWF; infer_instance

instance (b : Block) : Decidable (blockWF b) := by unfold blockWF; infer_instance

theorem rdInput_append (i : TXInput) (r : List Nat) (h : inputWF i) :
    rdInput (wrInput i ++ r) = some (i, r) := by
  obtain ⟨h1, ⟨h2a, h2b⟩, h3, h4⟩ := h
  unfold rdInput wrInput
  rw [List.append_assoc, List.append_assoc, List.append_assoc,
    rdBytes_append i.txid _ h1]
  simp only [Option.some_bind]
  rw [rdI_append 4 i.vout _ (by norm_num) h2a h2b]
  simp only [Option.some_bind]
  rw [rdBytes_append i.signature _ h3]
  simp only [Option.some_bind]
  rw [rdBytes_append i.pub_key _ h4]
  rfl

theorem rdOutput_append (o : TXOutput) (r : List Nat) (h : outputWF o) :
    rdOutput (wrOutput o ++ r) = some (o, r) := by
  obtain ⟨⟨h1a, h1b⟩, h2⟩ := h
  unfold rdOutput wrOutput
  rw [List.append_assoc, rdI_append 4 o.value _ (by norm_num) h1a h1b]
  simp only [Option.some_bind]
  rw [rdBytes_append o.pub_key_hash _ h2]
  rfl

theorem rdTx_append (t : Transaction) (r : List Nat) (h : txWF t) :
    rdTx (wrTx t ++ r) = some (t, r) := by
  obtain ⟨h1, h2, h3, h4, h5⟩ := h
  unfold rdTx wrTx
  rw [List.append_assoc, List.append_assoc, rdBytes_append t.id _ h1]
  simp only [Option.some_bind]
  rw [rdList_append rdInput wrInput t.vin _ h2
    fun i hi s => rdInput_append i s (h4 i hi)]
  simp only [Option.some_bind]
  rw [rdList_append rdOutput wrOutput t.vout _ h3
    fun o ho s => rdOutput_append o s (h5 o ho)]
  rfl

theorem rdBlock_append (b : Block) (r : List Nat) (h : blockWF b) :
    rdBlock (wrBlock b ++ r) = some (b, r) := by
  obtain ⟨⟨h1a, h1b⟩, h2, h3, h4, h5, h6⟩ := h
  unfold rdBlock wrBlock
  rw [List.append_assoc, List.append_assoc, List.append_assoc, List.append_assoc,
    rdI_append 8 b.time_stamp _ (by norm_num) h1a h1b]
  simp only [Option.some_bind]
  rw [rdList_append rdTx wrTx b.transaction _ h2
    fun t ht s => rdTx_append t s (h3 t ht)]
  simp only [Option.some_bind]
  rw [rdBytes_append b.prev_block_hash _ h4]
  simp only [Option.some_bind]
  rw [rdBytes_append b.hash _ h5]
  simp only [Option.some_bind]
  rw [rdU_append 4 b.nonce r (by norm_num at h6 ⊢; omega)]
  rfl

/-- `Block::serialize`: bincode encoding of the block. -/
def Block.serialize (b : Block) : List Nat := wrBlock b

/-- `Block::deserialize`: bincode decoding of a block from the front of
the byte stream. -/
def Block.deserialize (s : List Nat) : Option Block := deserializeBlock s

/-- C8: for every constructed block (whose machine-integer fields are in
range and whose sequences fit their `u64` length prefixes),
`Block::deserialize (Block::serialize b)` reconstructs `b`
field-for-field: `time_stamp`, `transaction`, `prev_block_hash`, `hash`
and `nonce` are all recovered exactly. -/
theorem c8_serialize_roundtrip (b : Block) (h : blockWF b) :
    Block.deserialize (Block.serialize b) = some b := by
  have hr := rdBlock_append b [] h
  rw [List.append_nil] at hr
  simp [Block.deserialize, Block.serialize, deserializeBlock, hr]

/-- A concrete block (a genesis-style block with one coinbase-shaped
transaction) used to instantiate round-trip statements. -/
def exBlock : Block :=
  { time_stamp := 1700000000,
    transaction := [
      { id := [0xaa, 0xbb],
        vin := [{ txid := [], vout := -1, signature := [71, 101, 110], pub_key := [] }],
        vout := [{ value := 10, pub_key_hash := [1, 2, 3, 4, 5] }] }],
    prev_block_hash := [],
    hash := [9, 8, 7],
    nonce := 42 }

theorem c8_serialize_roundtrip_witness :
    blockWF exBlock ∧ Block.deserialize (Block.serialize exBlock) = some exBlock :=
  ⟨by decide, c8_serialize_roundtrip exBlock (by decide)⟩

/-! ### Transaction hashing and coinbase structure (transaction.rs) -/

/-- `Transaction::serialize`: bincode encoding. -/
def Transaction.serialize (t : Transaction) : List Nat := wrTx t

/-- `Transaction::hash`: SHA-256 of the serialization of a copy whose
`id` is cleared. -/
def Transaction.hash (t : Transaction) : List Nat :=
  sha256 (wrTx { t with id := [] })

/-- `Transaction::is_coinbase`: exactly one input, empty `txid`,
`vout == -1`. -/
def Transaction.is_coinbase (t : Transaction) : Bool :=
  match t.vin with
  | [v] => v.txid.isEmpty && v.vout == -1
  | _ => false

/-- `Transaction::trimmed_copy`: same `id`, inputs with signatures and
public keys cleared, outputs copied. -/
def Transaction.trimmed_copy (t : Transaction) : Transaction :=
  { id := t.id,
    vin := t.vin.map fun v =>
      { txid := v.txid, vout := v.vout, signature := [], pub_key := [] },
    vout := t.vout.map fun o =>
      { value := o.value, pub_key_hash := o.pub_key_hash } }

/-! ### base58 decoding (base58.rs) and address-based locking -/

/-- Sequence the images of an `Option`-valued function over a list. -/
def mapOpt (f : α → Option β) : List α → Option (List β)
  | [] => some []
  | a :: t => (f a).bind fun b => (mapOpt f t).map fun bs => b :: bs

/-- The base58 alphabet `B58_ALPHABET` as byte values. -/
def b58Alphabet : List Nat :=
  [49, 50, 51, 52, 53, 54, 55, 56, 57,
   65, 66, 67, 68, 69, 70, 71, 72, 74, 75, 76, 77, 78,
   80, 81, 82, 83, 84, 85, 86, 87, 88, 89, 90,
   97, 98, 99, 100, 101, 102, 103, 104, 105, 106, 107,
   109, 110, 111, 112, 113, 114, 115, 116, 117, 118, 119, 120, 121, 122]

/-- Number of leading `'1'` characters (leading zero bytes marker). -/
def b58LeadingOnes : List Nat → Nat
  | c :: t => if c = 49 then b58LeadingOnes t + 1 else 0
  | [] => 0

/-- Index of a character in the base58 alphabet (`None` = invalid
character, which makes the Rust decoder panic). -/
def b58Index (c : Nat) : Option Nat := b58Alphabet.findIdx? fun a => a == c

/-- Minimal big-endian byte expansion, fuel-driven. -/
def beBytesOfAux : Nat → Nat → List Nat
  | 0, _ => []
  | fuel + 1, n => if n = 0 then [] else beBytesOfAux fuel (n / 256) ++ [n % 256]

/-- `BigInt::to_bytes_be` magnitude bytes: minimal big-endian digits,
`[0]` for zero. -/
def toBytesBE (n : Nat) : List Nat := if n = 0 then [0] else beBytesOfAux n n

/-- `base58::decode`: strip leading `'1'`s, Horner-evaluate the
remaining digits in base 58, convert to big-endian bytes and re-attach
one zero byte per stripped `'1'`; `none` models the panic on an invalid
character. -/
def base58_decode (input : List Nat) : Option (List Nat) :=
  let z := b58LeadingOnes input
  let payload := input.drop z
  (mapOpt b58Index payload).map fun ds =>
    List.replicate z 0 ++ toBytesBE (ds.foldl (fun a d => a * 58 + d) 0)

/-- `TXOutput::lock`: base58-decode the address and store bytes
`[1..20]` (19 bytes) of the payload as the locking hash; `none` models
the panics on an undecodable or too-short address. -/
def TXOutput.lock (o : TXOutput) (address : List Nat) : Option TXOutput :=
  (base58_decode address).bind fun pub_key_hash =>
    if 20 ≤ pub_key_hash.length then
      some { o with pub_key_hash := (pub_key_hash.drop 1).take 19 }
    else none

/-- `TXOutput::is_locked_with_key`: byte-for-byte comparison of the
stored hash with the query hash. -/
def TXOutput.is_locked_with_key (o : TXOutput) (pub_key_hash : List Nat) : Bool :=
  decide (o.pub_key_hash = pub_key_hash)

/-- `TXOutput::new`: an output of the given value locked to the given
address. -/
def TXOutput.new (value : Int) (address : List Nat) : Option TXOutput :=
  TXOutput.lock { value := value, pub_key_hash := [] } address

/-- The concrete well-formed address used in counterexamples: base58 of
`0x00 ‖ [1..20] ‖ checksum` where the checksum is the first four bytes
of the double SHA-256 of the versioned hash (as `wallet.rs` computes
it). -/
def exAddress : List Nat :=
  [49, 54, 76, 53, 121, 82, 78, 80, 84, 117, 99, 105, 83, 103, 88, 71,
   72, 113, 89, 119, 110, 57, 78, 54, 78, 101, 111, 75, 113, 111, 112, 65, 117]

/-- The 25-byte payload carried by `exAddress`. -/
def exPayload : List Nat :=
  [0, 1, 2, 3, 4, 5, 6, 7, 8, 9, 10, 11, 12, 13, 14, 15, 16, 17, 18, 19, 20,
   250, 85, 182, 74]

example : base58_decode exAddress = some exPayload := by decide

example : (sha256 (sha256 (exPayload.take 21))).take 4 = exPayload.drop 21 := by decide

/-- The full 20-byte pubKeyHash carried by `exAddress` (payload bytes
`[1..21]`). -/
def exHash20 : List Nat := (exPayload.drop 1).take 20

/-- C5 (code evaluated at the failing input): on the well-formed address
`exAddress`, whose payload carries the 20-byte pubKeyHash `exHash20` and
a valid checksum, `TXOutput::new` stores only payload bytes `[1..20]` —
19 bytes, dropping the hash's last byte — so `is_locked_with_key` on the
carried 20-byte hash returns `false`. -/
theorem c5_lock_drops_a_byte :
    (sha256 (sha256 (exPayload.take 21))).take 4 = exPayload.drop 21 ∧
    base58_decode exAddress = some exPayload ∧
    TXOutput.new 7 exAddress =
      some { value := 7, pub_key_hash := (exPayload.drop 1).take 19 } ∧
    ((exPayload.drop 1).take 19).length = 19 ∧
    exHash20.length = 20 ∧
    TXOutput.is_locked_with_key
      { value := 7, pub_key_hash := (exPayload.drop 1).take 19 } exHash20 = false := by
  refine ⟨by decide, by decide, ?_, by decide, by decide, by decide⟩
  decide

/-- `Transaction::new_coinbase_tx`: panics (`none`) when `data` is
empty; otherwise one sentinel input carrying `data` in its signature
field and one subsidy output of value 10 locked to `to`; the id is then
set to the SHA-256 of the transaction serialized with its empty id. -/
def new_coinbase_tx (toAddr data : List Nat) : Option Transaction :=
  if data.isEmpty then none
  else (TXOutput.new 10 toAddr).map fun txout =>
    let t0 : Transaction :=
      { id := [],
        vin := [{ txid := [], vout := -1, signature := data, pub_key := [] }],
        vout := [txout] }
    { t0 with id := sha256 (wrTx t0) }

/-- C10 counterexample: `new_coinbase_tx` also panics on a non-empty
`data` when the address is not decodable base58 (here the invalid
character `'@'`), so "panics if and only if the data string is empty" is
false. -/
theorem c10_counterexample :
    new_coinbase_tx [64] [120] = none ∧ ([120] : List Nat) ≠ [] := by
  exact ⟨by decide, by decide⟩

theorem TXOutput.new_value (v : Int) (addr : List Nat) (o : TXOutput)
    (h : TXOutput.new v addr = some o) : o.value = v := by
  unfold TXOutput.new TXOutput.lock at h
  rcases hd : base58_decode addr with _ | p
  · rw [hd] at h
    simp at h
  · rw [hd] at h
    simp only [Option.some_bind] at h
    split at h
    · simp only [Option.some.injEq] at h
      rw [← h]
    · simp at h

/-- C10 (amended): `new_coinbase_tx to data` panics iff `data` is empty
or locking the subsidy output to `to` panics (address not base58 or
decoding to fewer than 20 bytes); on success the transaction has exactly
one input with empty `txid`, `vout = -1`, `data` in the signature field
and empty `pub_key`, and exactly one output of the fixed subsidy value
10 locked to `to`, so `is_coinbase` holds. -/
theorem c10_new_coinbase_tx (toAddr data : List Nat) :
    (new_coinbase_tx toAddr data = none ↔ data = [] ∨ TXOutput.new 10 toAddr = none) ∧
    (∀ t, new_coinbase_tx toAddr data = some t →
      data ≠ [] ∧
      t.vin = [{ txid := [], vout := -1, signature := data, pub_key := [] }] ∧
      (∃ o, TXOutput.new 10 toAddr = some o ∧ t.vout = [o] ∧ o.value = 10) ∧
      t.is_coinbase = true) := by
  cases data with
  | nil =>
    refine ⟨by simp [new_coinbase_tx], fun t ht => ?_⟩
    simp [new_coinbase_tx] at ht
  | cons a as =>
    constructor
    · simp only [new_coinbase_tx, List.isEmpty_cons, Bool.false_eq_true,
        if_false]
      constructor
      · intro h
        exact Or.inr (Option.map_eq_none'.mp h)
      · rintro (h | h)
        · simp at h
        · simp [h]
    · intro t ht
      simp only [new_coinbase_tx, List.isEmpty_cons, Bool.false_eq_true,
        if_false] at ht
      rcases ho : TXOutput.new 10 toAddr with _ | o
      · rw [ho] at ht
        simp at ht
      · rw [ho] at ht
        simp only [Option.map_some', Option.some.injEq] at ht
        rw [← ht]
        exact ⟨by simp, rfl, ⟨o, rfl, rfl, TXOutput.new_value 10 toAddr o ho⟩, rfl⟩

/-! ### Signing and verification (transaction.rs, utils.rs)

The elliptic-curve primitives live in external crates (`secp256k1`,
`ripemd`), which the spec treats as a black-box capability
(`sign`, `verify`, `derivePublicKey`); they are parameters here.
`pkParse` models `PublicKey::from_slice` (which accepts only 33- or
65-byte encodings), `sigParse` models `Signature::from_der`, and
`ecVerify` models `secp.verify(msg, sig, pk)`. -/

/-- Black-box elliptic-curve and RIPEMD-160 capabilities. -/
structure ECParams where
  ripemd160 : List Nat → List Nat
  ecSign : List Nat → List Nat → List Nat
  derivePk : List Nat → List Nat
  pkParse : List Nat → Option (List Nat)
  sigParse : List Nat → Option (List Nat)
  ecVerify : List Nat → List Nat → List Nat → Bool

/-- `utils::hash_public_key`: RIPEMD-160 of SHA-256 of the key. -/
def hash_public_key (ec : ECParams) (public_key : List Nat) : List Nat :=
  ec.ripemd160 (sha256 public_key)

/-- `TXInput::uses_key`: the input's stored `pub_key` hashes to the
queried pubKeyHash. -/
def TXInput.uses_key (ec : ECParams) (v : TXInput) (pub_key_hash : List Nat) : Bool :=
  decide (hash_public_key ec v.pub_key = pub_key_hash)

/-- `HashMap<Vec<u8>, Transaction>` lookup (`prev_txs.get`). -/
def lookupTx (m : List (List Nat × Transaction)) (k : List Nat) : Option Transaction :=
  (m.find? fun p => p.1 == k).map Prod.snd

/-- Set the `value` of the output at the given index to zero
(`prev_tx_copy.vout[idx].value = 0`). -/
def zeroValueAt : List TXOutput → Nat → List TXOutput
  | [], _ => []
  | o :: rest, 0 => { o with value := 0 } :: rest
  | o :: rest, j + 1 => o :: zeroValueAt rest j

/-- The message actually signed (and re-derived by `verify`) for one
input: the recomputed id (`hash`) of a trimmed copy of the referenced
PREVIOUS transaction whose referenced output has its value zeroed.
`none` models the panics on a missing previous transaction or an
out-of-range output index (an `i32` cast to `usize`). -/
def signMessageFor (prevs : List (List Nat × Transaction)) (v : TXInput) :
    Option (List Nat) :=
  (lookupTx prevs v.txid).bind fun p =>
    if 0 ≤ v.vout ∧ v.vout.toNat < p.vout.length then
      some (Transaction.hash
        { p.trimmed_copy with vout := zeroValueAt p.trimmed_copy.vout v.vout.toNat })
    else none

/-- One iteration of the signing loop: fill the signature over the
per-input message and overwrite `pub_key` with
`hash_public_key(get_public_key(private_key))` — note: the HASH of the
public key, not the public key itself. -/
def signInput (ec : ECParams) (private_key : List Nat)
    (prevs : List (List Nat × Transaction)) (v : TXInput) : Option TXInput :=
  (signMessageFor prevs v).map fun m =>
    { txid := v.txid, vout := v.vout,
      signature := ec.ecSign private_key m,
      pub_key := hash_public_key ec (ec.derivePk private_key) }

/-- `Transaction::sign`: returns the transaction unchanged for
coinbase; aborts (`none`) when a referenced previous transaction is
missing; otherwise replaces `vin` by the trimmed inputs with signatures
and pub-key hashes filled in. -/
def Transaction.sign (ec : ECParams) (private_key : List Nat)
    (t : Transaction) (prevs : List (List Nat × Transaction)) : Option Transaction :=
  if t.is_coinbase then some t
  else if t.vin.any fun v => (lookupTx prevs v.txid).isNone then none
  else (mapOpt (signInput ec private_key prevs) t.trimmed_copy.vin).map
    fun vin2 => { t with vin := vin2 }

/-- One iteration of the verification loop, mirroring the Rust error
strings and their order. -/
def verifyIn (ec : ECParams) (prevs : List (List Nat × Transaction))
    (v : TXInput) : Option (Except String Unit) :=
  (signMessageFor prevs v).map fun m =>
    if m.length ≠ 32 then
      Except.error "ERROR: Failed to create message from slice"
    else
      match ec.pkParse v.pub_key with
      | none => Except.error "ERROR: Failed to create public key from slice"
      | some pk =>
        match ec.sigParse v.signature with
        | none => Except.error "ERROR: Failed to create signature from DER"
        | some sg =>
          if ec.ecVerify m sg pk then Except.ok ()
          else Except.error "ERROR: Signature verification failed"

/-- The verification loop over the inputs. -/
def verifyList (ec : ECParams) (prevs : List (List Nat × Transaction)) :
    List TXInput → Option (Except String Bool)
  | [] => some (Except.ok true)
  | v :: rest =>
    (verifyIn ec prevs v).bind fun r =>
      match r with
      | Except.error e => some (Except.error e)
      | Except.ok _ => verifyList ec prevs rest

/-- `Transaction::verify` (`Result<bool, _>`; the outer `Option` models
panics). -/
def Transaction.verify (ec : ECParams) (t : Transaction)
    (prevs : List (List Nat × Transaction)) : Option (Except String Bool) :=
  if t.is_coinbase then some (Except.ok true)
  else if t.vin.any fun v => (lookupTx prevs v.txid).isNone then
    some (Except.error "ERROR: Previous transaction is not correct")
  else verifyList ec prevs t.vin

/-- Modelled from the spec: the per-input signing message the
specification describes — the recomputed id of a trimmed copy of the
transaction ITSELF, with the current input's `publicKey` temporarily set
to the referenced prior output's `pubKeyHash`. -/
def setPubKeyAt : List TXInput → Nat → List Nat → List TXInput
  | [], _, _ => []
  | v :: rest, 0, pk => { v with pub_key := pk } :: rest
  | v :: rest, j + 1, pk => v :: setPubKeyAt rest j pk

/-- Modelled from the spec: the claimed signing message for input `i` of
`t` — hash of the trimmed-and-patched copy of `t` itself. -/
def specSignMessage (prevs : List (List Nat × Transaction)) (t : Transaction)
    (i : Nat) : Option (List Nat) :=
  (t.vin.get? i).bind fun v =>
    (lookupTx prevs v.txid).bind fun p =>
      if 0 ≤ v.vout ∧ v.vout.toNat < p.vout.length then
        some (Transaction.hash
          { t.trimmed_copy with
            vin := setPubKeyAt t.trimmed_copy.vin i
              ((p.vout.getD v.vout.toNat { value := 0, pub_key_hash := [] }).pub_key_hash) })
      else none

/-- A concrete previous transaction (coinbase-shaped, one output). -/
def exPrevTx : Transaction :=
  { id := [17, 34],
    vin := [{ txid := [], vout := -1, signature := [100], pub_key := [] }],
    vout := [{ value := 10, pub_key_hash := [1, 2, 3] }] }

/-- A concrete non-coinbase transaction spending `exPrevTx`'s output 0. -/
def exSpendTx : Transaction :=
  { id := [5, 6, 7],
    vin := [{ txid := [17, 34], vout := 0, signature := [], pub_key := [9, 9] }],
    vout := [{ value := 10, pub_key_hash := [4, 5, 6] }] }

/-- The previous-transactions map resolving `exSpendTx`'s input. -/
def exPrevs : List (List Nat × Transaction) := [([17, 34], exPrevTx)]

/-- A concrete instantiation of the black-box capabilities, with
`ecSign` returning the message itself so that the signed message is
observable in the `signature` field. -/
def exEC : ECParams :=
  { ripemd160 := fun _ => List.replicate 20 0,
    ecSign := fun _ m => m,
    derivePk := fun k => k,
    pkParse := fun _ => none,
    sigParse := fun _ => none,
    ecVerify := fun _ _ _ => false }

/-- C4 counterexample: with the observable instantiation `exEC`
(`ecSign` = identity in the message), signing `exSpendTx` stores in the
signature field a message different from the spec-described
trimmed-and-patched-self message — the code signs the hash of the
modified PREVIOUS transaction instead. -/
theorem c4_counterexample :
    (Transaction.sign exEC [42] exSpendTx exPrevs).map
        (fun t => t.vin.map TXInput.signature) ≠
      some [(specSignMessage exPrevs exSpendTx 0).getD []] := by decide

theorem transactionHash_length (t : Transaction) : t.hash.length = 32 :=
  sha256_length _

theorem mapOpt_length_get (f : α → Option β) :
    ∀ (l : List α) (l2 : List β), mapOpt f l = some l2 →
      l2.length = l.length ∧
      ∀ i v, l.get? i = some v → ∃ b, f v = some b ∧ l2.get? i = some b
  | [], l2, h => by
    simp only [mapOpt, Option.some.injEq] at h
    subst h
    exact ⟨rfl, by intro i v hv; simp at hv⟩
  | a :: tl, l2, h => by
    simp only [mapOpt] at h
    rcases hf : f a with _ | b
    · rw [hf] at h
      simp at h
    · rw [hf] at h
      simp only [Option.some_bind] at h
      rcases hm : mapOpt f tl with _ | tl2
      · rw [hm] at h
        simp at h
      · rw [hm] at h
        simp only [Option.map_some', Option.some.injEq] at h
        subst h
        have ih := mapOpt_length_get f tl tl2 hm
        refine ⟨by simp [ih.1], ?_⟩
        intro i v hv
        cases i with
        | zero =>
          simp only [List.get?_cons_zero, Option.some.injEq] at hv
          subst hv
          exact ⟨b, hf, by simp⟩
        | succ j =>
          simp only [List.get?_cons_succ] at hv ⊢
          exact ih.2 j v hv

theorem signMessageFor_trim (prevs : List (List Nat × Transaction)) (v : TXInput) :
    signMessageFor prevs
      { txid := v.txid, vout := v.vout, signature := [], pub_key := [] } =
    signMessageFor prevs v := rfl

/-- C4 (amended): for every non-coinbase transaction that signs
successfully, each input's stored signature is over the message
`signMessageFor`: the recomputed id (hash) of a trimmed copy of the
referenced PREVIOUS transaction in which the referenced output's value
is set to 0 — the transaction being signed enters the message only
through the input's `(txid, vout)` reference, no patched copy of the
transaction itself is hashed, and the stored `pub_key` is the hash of
the derived public key. -/
theorem c4_sign_messages (ec : ECParams) (priv : List Nat)
    (t : Transaction) (prevs : List (List Nat × Transaction)) (t2 : Transaction)
    (hnc : t.is_coinbase = false)
    (hs : Transaction.sign ec priv t prevs = some t2) :
    t2.id = t.id ∧ t2.vout = t.vout ∧ t2.vin.length = t.vin.length ∧
    ∀ i, i < t.vin.length →
      ∃ v m p, t.vin.get? i = some v ∧
        lookupTx prevs v.txid = some p ∧
        m = Transaction.hash
          { p.trimmed_copy with
            vout := zeroValueAt p.trimmed_copy.vout v.vout.toNat } ∧
        signMessageFor prevs v = some m ∧
        t2.vin.get? i = some
          { txid := v.txid, vout := v.vout,
            signature := ec.ecSign priv m,
            pub_key := hash_public_key ec (ec.derivePk priv) } := by
  unfold Transaction.sign at hs
  rw [hnc] at hs
  simp only [Bool.false_eq_true, if_false] at hs
  rcases hany : t.vin.any fun v => (lookupTx prevs v.txid).isNone with _ | _
  · rw [hany] at hs
    simp only [Bool.false_eq_true, if_false] at hs
    rcases hmo : mapOpt (signInput ec priv prevs) t.trimmed_copy.vin with _ | vin2
    · rw [hmo] at hs
      simp at hs
    · rw [hmo] at hs
      simp only [Option.map_some', Option.some.injEq] at hs
      have spec := mapOpt_length_get _ _ _ hmo
      refine ⟨by rw [← hs], by rw [← hs], ?_, ?_⟩
      · rw [← hs]
        simpa [Transaction.trimmed_copy] using spec.1
      · intro i hi
        have hvget : ∃ v, t.vin.get? i = some v := by
          rw [List.get?_eq_get hi]
          exact ⟨_, rfl⟩
        obtain ⟨v, hv⟩ := hvget
        have htrim : t.trimmed_copy.vin.get? i = some
            { txid := v.txid, vout := v.vout, signature := [], pub_key := [] } := by
          show (t.vin.map _).get? i = _
          rw [List.get?_map, hv]
          rfl
        obtain ⟨b, hb, hb2⟩ := spec.2 i _ htrim
        unfold signInput at hb
        rw [signMessageFor_trim] at hb
        rcases hmsg : signMessageFor prevs v with _ | m
        · rw [hmsg] at hb
          simp at hb
        · rw [hmsg] at hb
          simp only [Option.map_some', Option.some.injEq] at hb
          have hlk : ∃ p, lookupTx prevs v.txid = some p ∧
              m = Transaction.hash
                { p.trimmed_copy with
                  vout := zeroValueAt p.trimmed_copy.vout v.vout.toNat } := by
            unfold signMessageFor at hmsg
            rcases hp : lookupTx prevs v.txid with _ | p
            · rw [hp] at hmsg
              simp at hmsg
            · rw [hp] at hmsg
              simp only [Option.some_bind] at hmsg
              split at hmsg
              · simp only [Option.some.injEq] at hmsg
                exact ⟨p, rfl, hmsg.symm⟩
              · simp at hmsg
          obtain ⟨p, hp, hm⟩ := hlk
          refine ⟨v, m, p, hv, hp, hm, hmsg, ?_⟩
          rw [← hs]
          simp only []
          rw [hb2, ← hb]
  · rw [hany] at hs
    simp at hs

/-- The concrete result of signing `exSpendTx` under `exEC`. -/
def exSigned : Transaction :=
  (Transaction.sign exEC [42] exSpendTx exPrevs).getD exSpendTx

theorem c4_sign_messages_witness :
    exSpendTx.is_coinbase = false ∧
    (exSigned.id = exSpendTx.id ∧ exSigned.vout = exSpendTx.vout ∧
      exSigned.vin.length = exSpendTx.vin.length ∧
      ∀ i, i < exSpendTx.vin.length →
        ∃ v m p, exSpendTx.vin.get? i = some v ∧
          lookupTx exPrevs v.txid = some p ∧
          m = Transaction.hash
            { p.trimmed_copy with
              vout := zeroValueAt p.trimmed_copy.vout v.vout.toNat } ∧
          signMessageFor exPrevs v = some m ∧
          exSigned.vin.get? i = some
            { txid := v.txid, vout := v.vout,
              signature := exEC.ecSign [42] m,
              pub_key := hash_public_key exEC (exEC.derivePk [42]) }) :=
  ⟨by decide,
   c4_sign_messages exEC [42] exSpendTx exPrevs exSigned (by decide) (by decide)⟩

/-- The trimmed previous transaction with its spent output zeroed, used
as the actual signing preimage for `exSpendTx`. -/
def exZeroPrev : Transaction :=
  { id := [17, 34],
    vin := [{ txid := [], vout := -1, signature := [], pub_key := [] }],
    vout := [{ value := 0, pub_key_hash := [1, 2, 3] }] }

theorem verifyIn_pk_error (ec : ECParams) (prevs : List (List Nat × Transaction))
    (v : TXInput) (m : List Nat) (hm : signMessageFor prevs v = some m)
    (h32 : m.length = 32) (hp : ec.pkParse v.pub_key = none) :
    verifyIn ec prevs v =
      some (Except.error "ERROR: Failed to create public key from slice") := by
  unfold verifyIn
  rw [hm]
  simp [h32, hp]

/-- C3 (code evaluated at the failing input): signing the concrete
non-coinbase transaction `exSpendTx` with a valid key and then verifying
it with the same previous-transactions map does NOT return `Ok(true)`:
`sign` stores `hash_public_key(get_public_key(k))` — a 20-byte hash — in
the input's `pub_key` field, and `verify`'s `PublicKey::from_slice`
(which accepts only 33- or 65-byte encodings) therefore fails, so
`verify` returns the public-key parse error for every choice of
primitives with the real output lengths. -/
theorem c3_sign_verify_pubkey_error (ec : ECParams)
    (hlen : ∀ m, (ec.ripemd160 m).length = 20)
    (hpk : ∀ b, b.length ≠ 33 → b.length ≠ 65 → ec.pkParse b = none) :
    (Transaction.sign ec [42] exSpendTx exPrevs).map
        (fun t => Transaction.verify ec t exPrevs) =
      some (some (Except.error "ERROR: Failed to create public key from slice")) := by
  have hsign : Transaction.sign ec [42] exSpendTx exPrevs = some
      { id := [5, 6, 7],
        vin := [{ txid := [17, 34], vout := 0,
                  signature := ec.ecSign [42] (Transaction.hash exZeroPrev),
                  pub_key := hash_public_key ec (ec.derivePk [42]) }],
        vout := [{ value := 10, pub_key_hash := [4, 5, 6] }] } := rfl
  rw [hsign]
  simp only [Option.map_some']
  have hm : signMessageFor exPrevs
      { txid := [17, 34], vout := 0,
        signature := ec.ecSign [42] (Transaction.hash exZeroPrev),
        pub_key := hash_public_key ec (ec.derivePk [42]) } =
      some (Transaction.hash exZeroPrev) := rfl
  have hp : ec.pkParse (hash_public_key ec (ec.derivePk [42])) = none := by
    apply hpk
    · unfold hash_public_key
      rw [hlen]
      decide
    · unfold hash_public_key
      rw [hlen]
      decide
  have hv := verifyIn_pk_error ec exPrevs _ _ hm (transactionHash_length _) hp
  rw [show Transaction.verify ec
      { id := [5, 6, 7],
        vin := [{ txid := [17, 34], vout := 0,
                  signature := ec.ecSign [42] (Transaction.hash exZeroPrev),
                  pub_key := hash_public_key ec (ec.derivePk [42]) }],
        vout := [{ value := 10, pub_key_hash := [4, 5, 6] }] } exPrevs =
      (verifyIn ec exPrevs
        { txid := [17, 34], vout := 0,
          signature := ec.ecSign [42] (Transaction.hash exZeroPrev),
          pub_key := hash_public_key ec (ec.derivePk [42]) }).bind
        (fun r => match r with
          | Except.error e => some (Except.error e)
          | Except.ok _ => verifyList ec exPrevs []) from rfl]
  rw [hv]
  rfl

theorem c3_sign_verify_pubkey_error_witness :
    (Transaction.sign exEC [42] exSpendTx exPrevs).map
        (fun t => Transaction.verify exEC t exPrevs) =
      some (some (Except.error "ERROR: Failed to create public key from slice")) :=
  c3_sign_verify_pubkey_error exEC (fun _ => rfl) (fun _ _ _ => rfl)

/-! ### Chain scans (blockchain.rs)

The chain is modelled as the list of blocks the `BlockchainIterator`
yields, tip first.  The `HashMap<String, _>` maps keyed by lowercase-hex
transaction ids are modelled as association lists with insert-or-update
semantics. -/

/-- Lowercase hex digit of a nibble (`HEXLOWER`). -/
def hexDigit (n : Nat) : Nat := if n < 10 then 48 + n else 87 + n

/-- `HEXLOWER.encode`. -/
def hexEncode (bs : List Nat) : List Nat :=
  catMap (fun b => [hexDigit (b / 16), hexDigit (b % 16)]) bs

/-- Value of one hex character (upper or lower case accepted, as
`hex::decode` does). -/
def hexDigitVal (c : Nat) : Option Nat :=
  if 48 ≤ c ∧ c ≤ 57 then some (c - 48)
  else if 97 ≤ c ∧ c ≤ 102 then some (c - 87)
  else if 65 ≤ c ∧ c ≤ 70 then some (c - 55)
  else none

/-- `hex::decode` on a character list. -/
def hexPairs : List Nat → Option (List Nat)
  | [] => some []
  | c1 :: c2 :: rest =>
    (hexDigitVal c1).bind fun h =>
      (hexDigitVal c2).bind fun l =>
        (hexPairs rest).map fun bs => (16 * h + l) :: bs
  | _ => none

/-- `utils::string_hex`: hex decoding that falls back to the empty
vector on a malformed string. -/
def string_hex (s : List Nat) : List Nat := (hexPairs s).getD []

theorem string_hex_hexEncode (bs : List Nat) (h : ∀ b ∈ bs, b < 256) :
    string_hex (hexEncode bs) = bs := by
  induction bs with
  | nil => rfl
  | cons b t ih =>
    have hb : b < 256 := h b (by simp)
    have hd1 : hexDigitVal (hexDigit (b / 16)) = some (b / 16) := by
      unfold hexDigit hexDigitVal
      split_ifs <;>
        first
        | (simp only [Option.some.injEq]; omega)
        | (exfalso; omega)
    have hd2 : hexDigitVal (hexDigit (b % 16)) = some (b % 16) := by
      unfold hexDigit hexDigitVal
      split_ifs <;>
        first
        | (simp only [Option.some.injEq]; omega)
        | (exfalso; omega)
    have iht := ih fun x hx => h x (by simp [hx])
    unfold string_hex at iht ⊢
    unfold hexEncode catMap
    rw [show (([hexDigit (b / 16), hexDigit (b % 16)] : List Nat) ++
        catMap (fun b => [hexDigit (b / 16), hexDigit (b % 16)]) t) =
        hexDigit (b / 16) :: hexDigit (b % 16) ::
          catMap (fun b => [hexDigit (b / 16), hexDigit (b % 16)]) t from rfl]
    unfold hexPairs
    rw [hd1, hd2]
    simp only [Option.some_bind]
    unfold hexEncode at iht
    rcases hp : hexPairs (catMap (fun b => [hexDigit (b / 16), hexDigit (b % 16)]) t) with _ | bs
    · rw [hp] at iht
      simp only [Option.getD_none] at iht
      rw [← iht] at hp
      simp [catMap, hexPairs] at hp
    · rw [hp] at iht
      simp only [Option.getD_some] at iht
      subst iht
      simp only [Option.map_some', Option.getD_some]
      have hbeq : 16 * (b / 16) + b % 16 = b := by omega
      rw [hbeq]

/-- Association-list lookup (`HashMap::get` / `contains_key`). -/
def alGet (m : List (List Nat × α)) (k : List Nat) : Option α :=
  (m.find? fun p => p.1 == k).map Prod.snd

/-- Replace the value stored under a present key. -/
def alUpdate (m : List (List Nat × α)) (k : List Nat) (v : α) :
    List (List Nat × α) :=
  m.map fun p => if p.1 == k then (p.1, v) else p

/-- The `contains_key`/`get_mut().push`-or-`insert(vec![x])` pattern
used by both scan maps. -/
def alPush (m : List (List Nat × List α)) (k : List Nat) (x : α) :
    List (List Nat × List α) :=
  match alGet m k with
  | some xs => alUpdate m k (xs ++ [x])
  | none => m ++ [(k, [x])]

/-- The outputs pass of `find_unspent_transactions` on one transaction:
for each output index not recorded as spent for this (hex) txid, if the
output is locked to `pub_key_hash`, push a copy of the WHOLE transaction.
-/
def scanTxOutputs (pkh : List Nat) (spent : List (List Nat × List Int))
    (txid_hex : List Nat) (tx : Transaction) :
    List TXOutput → Nat → List Transaction
  | [], _ => []
  | o :: rest, idx =>
    (if ((alGet spent txid_hex).getD []).contains (idx : Int) then
      ([] : List Transaction)
     else if o.is_locked_with_key pkh then [tx] else []) ++
      scanTxOutputs pkh spent txid_hex tx rest (idx + 1)

/-- The inputs pass of `find_unspent_transactions` on one (non-coinbase)
transaction: record `(hex txid, vout)` as spent for each input whose
public key hashes to `pub_key_hash`. -/
def markSpentInputs (ec : ECParams) (pkh : List Nat) :
    List TXInput → List (List Nat × List Int) → List (List Nat × List Int)
  | [], spent => spent
  | v :: rest, spent =>
    markSpentInputs ec pkh rest
      (if v.uses_key ec pkh then alPush spent (hexEncode v.txid) v.vout else spent)

/-- One transaction of the scan: outputs pass first, then (for
non-coinbase transactions) the inputs pass. -/
def scanTx (ec : ECParams) (pkh : List Nat)
    (st : List Transaction × List (List Nat × List Int)) (tx : Transaction) :
    List Transaction × List (List Nat × List Int) :=
  (st.1 ++ scanTxOutputs pkh st.2 (hexEncode tx.id) tx tx.vout 0,
   if tx.is_coinbase then st.2 else markSpentInputs ec pkh tx.vin st.2)

/-- `Blockchain::find_unspent_transactions`: walk the chain tip to
genesis, maintaining the spent map, and return the collected
transactions. -/
def find_unspent_transactions (ec : ECParams) (chain : List Block)
    (pub_key_hash : List Nat) : List Transaction :=
  (chain.foldl (fun st b => b.transaction.foldl (scanTx ec pub_key_hash) st)
    ([], [])).1

/-- `Blockchain::find_utxo`: flatten the collected transactions,
keeping the outputs locked to the query hash. -/
def find_utxo (ec : ECParams) (chain : List Block) (pub_key_hash : List Nat) :
    List TXOutput :=
  catMap (fun tx => tx.vout.filter fun o => o.is_locked_with_key pub_key_hash)
    (find_unspent_transactions ec chain pub_key_hash)

/-- A transaction with TWO outputs locked to the same pubKeyHash
`[1, 2, 3]`. -/
def c1Tx : Transaction :=
  { id := [170],
    vin := [{ txid := [], vout := -1, signature := [], pub_key := [] }],
    vout := [{ value := 3, pub_key_hash := [1, 2, 3] },
             { value := 4, pub_key_hash := [1, 2, 3] }] }

/-- A one-block chain holding `c1Tx`. -/
def c1Chain : List Block :=
  [{ time_stamp := 0, transaction := [c1Tx], prev_block_hash := [],
     hash := [1], nonce := 0 }]

/-- C1 (code evaluated at the failing input): on a chain whose only
transaction has two unspent outputs locked to `[1, 2, 3]`,
`find_utxo` reports EACH of the two outputs TWICE (the scan pushes the
whole transaction once per matching output, and `find_utxo` then
re-collects every matching output per pushed copy), so an unspent output
is not reported exactly once and the summed balance is doubled. -/
theorem c1_find_utxo_duplicates (ec : ECParams) :
    find_utxo ec c1Chain [1, 2, 3] =
      [{ value := 3, pub_key_hash := [1, 2, 3] },
       { value := 4, pub_key_hash := [1, 2, 3] },
       { value := 3, pub_key_hash := [1, 2, 3] },
       { value := 4, pub_key_hash := [1, 2, 3] }] := rfl

/-- The greedy output-selection inner loop of
`Blockchain::find_spendable_outputs` over one unspent transaction; the
`Bool` reports whether `accumulated >= amount` fired (`break 'outer`). -/
def fsoOuts (pkh : List Nat) (amount : Int) (txid_hex : List Nat) :
    List TXOutput → Nat → Int → List (List Nat × List Nat) →
      Int × List (List Nat × List Nat) × Bool
  | [], _, acc, m => (acc, m, false)
  | o :: rest, idx, acc, m =>
    if o.is_locked_with_key pkh then
      let acc2 := acc + o.value
      let m2 := alPush m txid_hex idx
      if amount ≤ acc2 then (acc2, m2, true)
      else fsoOuts pkh amount txid_hex rest (idx + 1) acc2 m2
    else fsoOuts pkh amount txid_hex rest (idx + 1) acc m

/-- The outer loop of `find_spendable_outputs` over the unspent
transactions. -/
def fsoTxs (pkh : List Nat) (amount : Int) :
    List Transaction → Int → List (List Nat × List Nat) →
      Int × List (List Nat × List Nat)
  | [], acc, m => (acc, m)
  | tx :: rest, acc, m =>
    match fsoOuts pkh amount (hexEncode tx.id) tx.vout 0 acc m with
    | (acc2, m2, true) => (acc2, m2)
    | (acc2, m2, false) => fsoTxs pkh amount rest acc2 m2

/-- `Blockchain::find_spendable_outputs`: greedy first-encountered
selection over `find_unspent_transactions`, stopping as soon as the
accumulated value reaches `amount`. -/
def find_spendable_outputs (ec : ECParams) (chain : List Block)
    (pub_key_hash : List Nat) (amount : Int) :
    Int × List (List Nat × List Nat) :=
  fsoTxs pub_key_hash amount
    (find_unspent_transactions ec chain pub_key_hash) 0 []

/-- The inputs `new_utxo_transaction` builds: one per selected prior
output, `txid` hex-decoded back from the map key, empty signature, and
the sender's decoded address payload in `pub_key`. -/
def selectedInputs (m : List (List Nat × List Nat)) (spay : List Nat) :
    List TXInput :=
  catMap (fun p => p.2.map fun (o : Nat) =>
    ({ txid := string_hex p.1, vout := (o : Int), signature := [],
       pub_key := spay } : TXInput)) m

/-- `Transaction::new_utxo_transaction` up to (and including) the id
computation.  The outer `Option` models the base58 / slicing panics;
the `Except` carries the insufficient-funds error.  (The subsequent
`blockchain.sign_transaction` call only fills the input signatures and
is not part of the construction this models; the corresponding
`Blockchain` method is not present in the sources.) -/
def new_utxo_transaction (ec : ECParams) (sender receiver : List Nat)
    (amount : Int) (chain : List Block) : Option (Except String Transaction) :=
  (base58_decode sender).bind fun spay =>
    let fso := find_spendable_outputs ec chain spay amount
    if fso.1 < amount then some (Except.error "ERROR: Not enough funds")
    else
      (TXOutput.new amount receiver).bind fun outR =>
        (if amount < fso.1 then
          (TXOutput.new (fso.1 - amount) sender).map fun c => [outR, c]
         else some [outR]).map fun outs =>
          let t0 : Transaction :=
            { id := [], vin := selectedInputs fso.2 spay, vout := outs }
          Except.ok { t0 with id := t0.hash }

theorem catMap_length (f : α → List β) (l : List α) :
    (catMap f l).length = (l.map fun a => (f a).length).sum := by
  induction l with
  | nil => rfl
  | cons a t ih => simp [catMap, ih]

theorem selectedInputs_shape (m : List (List Nat × List Nat)) (spay : List Nat) :
    (selectedInputs m spay).length = (m.map fun p => p.2.length).sum ∧
    ∀ v ∈ selectedInputs m spay, v.signature = [] ∧ v.pub_key = spay := by
  constructor
  · unfold selectedInputs
    rw [catMap_length]
    simp
  · induction m with
    | nil =>
      intro v hv
      simp [selectedInputs, catMap] at hv
    | cons p rest ih =>
      intro v hv
      simp only [selectedInputs, catMap, List.mem_append] at hv
      rcases hv with hv | hv
      · simp only [List.mem_map] at hv
        obtain ⟨o, _, ho⟩ := hv
        rw [← ho]
        exact ⟨rfl, rfl⟩
      · exact ih v hv

/-- C6: `new_utxo_transaction` fails with the insufficient-funds error
exactly when the value accumulated by `find_spendable_outputs` is below
`amount`; on success the built transaction has one input per selected
prior output — empty signature, the sender's decoded payload as
`pub_key` — one output of `amount` locked to the receiver, and a change
output of `accumulated - amount` locked back to the sender exactly when
the accumulated value exceeds `amount`. -/
theorem c6_new_utxo_transaction (ec : ECParams) (sender receiver spay : List Nat)
    (amount acc : Int) (m : List (List Nat × List Nat)) (chain : List Block)
    (hs : base58_decode sender = some spay)
    (hfso : find_spendable_outputs ec chain spay amount = (acc, m)) :
    ((new_utxo_transaction ec sender receiver amount chain =
        some (Except.error "ERROR: Not enough funds")) ↔ acc < amount) ∧
    ((selectedInputs m spay).length = (m.map fun p => p.2.length).sum ∧
      ∀ v ∈ selectedInputs m spay, v.signature = [] ∧ v.pub_key = spay) ∧
    (∀ outR, amount ≤ acc → TXOutput.new amount receiver = some outR →
      (acc = amount →
        new_utxo_transaction ec sender receiver amount chain =
          some (Except.ok
            { id := Transaction.hash
                { id := [], vin := selectedInputs m spay, vout := [outR] },
              vin := selectedInputs m spay, vout := [outR] })) ∧
      (∀ outC, amount < acc → TXOutput.new (acc - amount) sender = some outC →
        new_utxo_transaction ec sender receiver amount chain =
          some (Except.ok
            { id := Transaction.hash
                { id := [], vin := selectedInputs m spay, vout := [outR, outC] },
              vin := selectedInputs m spay, vout := [outR, outC] }))) := by
  have hbody : new_utxo_transaction ec sender receiver amount chain =
      (if acc < amount then some (Except.error "ERROR: Not enough funds")
       else (TXOutput.new amount receiver).bind fun outR =>
         (if amount < acc then
            (TXOutput.new (acc - amount) sender).map fun c => [outR, c]
          else some [outR]).map fun outs =>
           Except.ok
             { id := Transaction.hash
                 { id := [], vin := selectedInputs m spay, vout := outs },
               vin := selectedInputs m spay, vout := outs }) := by
    unfold new_utxo_transaction
    rw [hs]
    simp only [Option.some_bind]
    rw [hfso]
  refine ⟨?_, selectedInputs_shape m spay, ?_⟩
  · rw [hbody]
    by_cases hlt : acc < amount
    · simp [hlt]
    · simp only [if_neg hlt]
      constructor
      · intro hcontra
        exfalso
        rcases ho : TXOutput.new amount receiver with _ | outR
        · rw [ho] at hcontra
          simp at hcontra
        · rw [ho] at hcontra
          simp only [Option.some_bind] at hcontra
          rcases hif : (if amount < acc then
              (TXOutput.new (acc - amount) sender).map fun c => [outR, c]
            else some [outR]) with _ | outs
          · rw [hif] at hcontra
            simp at hcontra
          · rw [hif] at hcontra
            simp at hcontra
      · intro h
        exact absurd h hlt
  · intro outR hle hR
    constructor
    · intro heq
      rw [hbody, if_neg (by omega), hR]
      simp only [Option.some_bind, if_neg (show ¬ amount < acc by omega)]
      rfl
    · intro outC hltacc hC
      rw [hbody, if_neg (by omega), hR]
      simp only [Option.some_bind, if_pos hltacc, hC]
      rfl

theorem c6_new_utxo_transaction_witness :
    base58_decode exAddress = some exPayload ∧
    find_spendable_outputs exEC [] exPayload 0 = (0, []) ∧
    (((new_utxo_transaction exEC exAddress exAddress 0 [] =
        some (Except.error "ERROR: Not enough funds")) ↔ (0 : Int) < 0) ∧
     ((selectedInputs [] exPayload).length =
        (([] : List (List Nat × List Nat)).map fun p => p.2.length).sum ∧
      ∀ v ∈ selectedInputs [] exPayload,
        v.signature = [] ∧ v.pub_key = exPayload) ∧
     (∀ outR, (0 : Int) ≤ 0 → TXOutput.new 0 exAddress = some outR →
       ((0 : Int) = 0 →
         new_utxo_transaction exEC exAddress exAddress 0 [] =
           some (Except.ok
             { id := Transaction.hash
                 { id := [], vin := selectedInputs [] exPayload, vout := [outR] },
               vin := selectedInputs [] exPayload, vout := [outR] })) ∧
       (∀ outC, (0 : Int) < 0 → TXOutput.new ((0 : Int) - 0) exAddress = some outC →
         new_utxo_transaction exEC exAddress exAddress 0 [] =
           some (Except.ok
             { id := Transaction.hash
                 { id := [], vin := selectedInputs [] exPayload,
                   vout := [outR, outC] },
               vin := selectedInputs [] exPayload, vout := [outR, outC] })))) :=
  ⟨by decide, by decide,
   c6_new_utxo_transaction exEC exAddress exAddress exPayload 0 0 [] []
     (by decide) (by decide)⟩

/-! ### Proof of work (proofofwork.rs, block.rs) -/

/-- `TARGET_BITS`. -/
def TARGET_BITS : Nat := 16

/-- The mining target `1 << (256 - TARGET_BITS)`. -/
def powTarget : Nat := 2 ^ (256 - TARGET_BITS)

/-- `Block::hash_transaction`: SHA-256 of the concatenation of the
transaction ids in block order. -/
def Block.hash_transaction (b : Block) : List Nat :=
  sha256 (catMap Transaction.id b.transaction)

/-- `ProofOfWork::prepare_data`: little-endian timestamp, aggregate
transaction hash, previous block hash, little-endian `TARGET_BITS`,
big-endian nonce. -/
def prepare_data (b : Block) (nonce : Nat) : List Nat :=
  wrI 8 b.time_stamp ++ b.hash_transaction ++ b.prev_block_hash ++
    leBytes 2 TARGET_BITS ++ beBytes 4 nonce

/-- The mining loop of `ProofOfWork::run`; the fuel counts the nonces
still to try, and `(0, [])` is the exhaustion sentinel. -/
def powLoop (pd : Nat → List Nat) (target : Nat) : Nat → Nat → Nat × List Nat
  | _, 0 => (0, [])
  | nonce, fuel + 1 =>
    let hash := sha256 (pd nonce)
    if beVal hash < target then (nonce, hash)
    else powLoop pd target (nonce + 1) fuel

/-- `ProofOfWork::run`: tries nonces `0 .. u32::MAX - 1` (the Rust
range `0..u32::MAX` excludes `u32::MAX` itself). -/
def powRun (b : Block) : Nat × List Nat :=
  powLoop (prepare_data b) powTarget 0 (2 ^ 32 - 1)

/-- `Block::new` with the `SystemTime::now` timestamp as a parameter:
mine on the block whose `hash`/`nonce` are still empty, then freeze the
found nonce and hash. -/
def Block.new (ts : Int) (transactions : List Transaction)
    (prev_block_hash : List Nat) : Block :=
  let b0 : Block :=
    { time_stamp := ts, transaction := transactions,
      prev_block_hash := prev_block_hash, hash := [], nonce := 0 }
  let r := powRun b0
  { b0 with nonce := r.1, hash := r.2 }

/-- `ProofOfWork::validate`: recompute the hash at the stored nonce and
compare against the target. -/
def powValidate (b : Block) : Bool :=
  decide (beVal (sha256 (prepare_data b b.nonce)) < powTarget)

theorem powLoop_spec (pd : Nat → List Nat) (target : Nat) :
    ∀ (fuel start : Nat),
      (∃ k, k < fuel ∧ beVal (sha256 (pd (start + k))) < target) →
      ∃ k, k < fuel ∧ beVal (sha256 (pd (start + k))) < target ∧
        powLoop pd target start fuel = (start + k, sha256 (pd (start + k))) := by
  intro fuel
  induction fuel with
  | zero =>
    intro start h
    obtain ⟨k, hk, _⟩ := h
    omega
  | succ fuel ih =>
    intro start h
    by_cases h0 : beVal (sha256 (pd start)) < target
    · refine ⟨0, by omega, by simpa using h0, ?_⟩
      unfold powLoop
      simp [h0]
    · obtain ⟨k, hk, hkv⟩ := h
      have hk0 : k ≠ 0 := by
        intro hc
        subst hc
        simp at hkv
        exact h0 hkv
      have hnext : ∃ j, j < fuel ∧
          beVal (sha256 (pd (start + 1 + j))) < target := by
        refine ⟨k - 1, by omega, ?_⟩
        have : start + 1 + (k - 1) = start + k := by omega
        rw [this]
        exact hkv
      obtain ⟨j, hj, hjv, hjr⟩ := ih (start + 1) hnext
      refine ⟨j + 1, by omega, ?_, ?_⟩
      · have : start + (j + 1) = start + 1 + j := by omega
        rw [this]
        exact hjv
      · unfold powLoop
        simp only [if_neg h0]
        have : start + (j + 1) = start + 1 + j := by omega
        rw [this]
        exact hjr

/-- C2: whenever `ProofOfWork::run` finds a solution before exhausting
the 32-bit nonce space (the hypothesis), the mined block stores a hash
equal to SHA-256 of the proof-of-work preimage built from the stored
nonce, that hash read as a big-endian integer is strictly below
`2 ^ (256 - 16)`, and `ProofOfWork::validate` accepts the block. -/
theorem c2_mined_block_valid (ts : Int) (txs : List Transaction) (prev : List Nat)
    (hfound : ∃ k, k < 2 ^ 32 - 1 ∧
      beVal (sha256 (prepare_data
        { time_stamp := ts, transaction := txs, prev_block_hash := prev,
          hash := [], nonce := 0 } k)) < powTarget) :
    (Block.new ts txs prev).hash =
      sha256 (prepare_data (Block.new ts txs prev) (Block.new ts txs prev).nonce) ∧
    beVal (Block.new ts txs prev).hash < 2 ^ (256 - 16) ∧
    powValidate (Block.new ts txs prev) = true := by
  have hspec := powLoop_spec
    (prepare_data
      { time_stamp := ts, transaction := txs, prev_block_hash := prev,
        hash := [], nonce := 0 }) powTarget (2 ^ 32 - 1) 0 (by simpa using hfound)
  obtain ⟨k, hk, hkv, hkr⟩ := hspec
  simp only [Nat.zero_add] at hkv hkr
  have hb : Block.new ts txs prev =
      { time_stamp := ts, transaction := txs, prev_block_hash := prev,
        hash := sha256 (prepare_data
          { time_stamp := ts, transaction := txs, prev_block_hash := prev,
            hash := [], nonce := 0 } k),
        nonce := k } := by
    unfold Block.new
    simp only []
    rw [show powRun
        { time_stamp := ts, transaction := txs, prev_block_hash := prev,
          hash := [], nonce := 0 } =
        powLoop (prepare_data
          { time_stamp := ts, transaction := txs, prev_block_hash := prev,
            hash := [], nonce := 0 }) powTarget 0 (2 ^ 32 - 1) from rfl]
    rw [hkr]
  have hpd : ∀ hs : List Nat, ∀ nn : Nat, prepare_data
      { time_stamp := ts, transaction := txs, prev_block_hash := prev,
        hash := hs, nonce := nn } k =
      prepare_data
        { time_stamp := ts, transaction := txs, prev_block_hash := prev,
          hash := [], nonce := 0 } k := fun _ _ => rfl
  rw [hb]
  exact ⟨rfl, hkv, decide_eq_true hkv⟩

theorem c2_mined_block_valid_witness :
    (∃ k, k < 2 ^ 32 - 1 ∧
      beVal (sha256 (prepare_data
        { time_stamp := 1700000000, transaction := [], prev_block_hash := [],
          hash := [], nonce := 0 } k)) < powTarget) ∧
    ((Block.new 1700000000 [] []).hash =
      sha256 (prepare_data (Block.new 1700000000 [] [])
        (Block.new 1700000000 [] []).nonce) ∧
    beVal (Block.new 1700000000 [] []).hash < 2 ^ (256 - 16) ∧
    powValidate (Block.new 1700000000 [] []) = true) :=
  ⟨⟨60560, by decide, by decide⟩,
   c2_mined_block_valid 1700000000 [] [] ⟨60560, by decide, by decide⟩⟩

/-! ### The key-value store (bcdb.rs) and block persistence -/

/-- Reinterpret a 32-bit unsigned value as an `i32`
(`LittleEndian::read_i32`). -/
def toI32 (n : Nat) : Int :=
  if n < 2 ^ 31 then (n : Int) else (n : Int) - 2 ^ 32

/-- `from_u8`: copy the last (at most four) key bytes to the END of a
zeroed 4-byte buffer and read the buffer little-endian, so the zero
padding occupies the LOW-order byte positions. -/
def from_u8 (key : List Nat) : Int :=
  let key_end := min key.length 4
  let buffer :=
    List.replicate (4 - key_end) 0 ++ key.drop (key.length - key_end)
  toI32 (leVal buffer)

/-- Follows the claim's words: the i32 formed from the last at most four
key bytes, little-endian, zero-padded at the HIGH-order end (so a short
key's bytes stay in the low-order positions). -/
def claimedKeyAddr (key : List Nat) : Int :=
  let key_end := min key.length 4
  toI32 (leVal (key.drop (key.length - key_end) ++
    List.replicate (4 - key_end) 0))

/-- `BlockchainDb::write`: the store keyed by `from_u8` of the byte key;
most recent entry first. -/
def bcdbWrite (st : List (Int × List Nat)) (key val : List Nat) :
    List (Int × List Nat) :=
  (from_u8 key, val) :: st

/-- `BlockchainDb::read`: look up `from_u8` of the byte key. -/
def bcdbRead (st : List (Int × List Nat)) (key : List Nat) :
    Option (List Nat) :=
  (st.find? fun p => p.1 == from_u8 key).map Prod.snd

/-- C9 counterexample: on the one-byte key `[7]` the code places the
byte in the MOST-significant position (value `7 * 2^24 = 117440512`),
not the low-order position the claim's "zero-padded at the high-order
end" wording gives (value `7`). -/
theorem c9_counterexample :
    from_u8 [7] = 117440512 ∧ claimedKeyAddr [7] = 7 ∧
      from_u8 [7] ≠ claimedKeyAddr [7] := by decide

/-- C9 (amended): `write`/`read` address records solely by the i32
`from_u8` builds from the last at most four key bytes — little-endian
with the zero padding at the LOW-order end, a shorter key's bytes
occupying the most-significant positions — so keys sharing their last
four bytes collide: any two keys of length ≥ 4 with equal 4-byte
suffixes, and the empty key with any key ending in four zero bytes, get
the same address, and a write under one key is observed by a subsequent
read under the other. -/
theorem c9_from_u8_addressing (k1 k2 k v : List Nat)
    (st : List (Int × List Nat))
    (h1 : 4 ≤ k1.length) (h2 : 4 ≤ k2.length)
    (hsuf : k1.drop (k1.length - 4) = k2.drop (k2.length - 4)) :
    from_u8 k1 = from_u8 k2 ∧
    from_u8 (k ++ [0, 0, 0, 0]) = from_u8 [] ∧
    (∀ key1 key2, from_u8 key1 = from_u8 key2 →
      bcdbRead (bcdbWrite st key1 v) key2 = some v) := by
  refine ⟨?_, ?_, ?_⟩
  · simp only [from_u8]
    have e1 : min k1.length 4 = 4 := by omega
    have e2 : min k2.length 4 = 4 := by omega
    rw [e1, e2, hsuf]
  · have hl : (k ++ [0, 0, 0, 0]).length = k.length + 4 := by simp
    simp only [from_u8, hl]
    have hm : min (k.length + 4) 4 = 4 := by omega
    rw [hm]
    have hd : k.length + 4 - 4 = k.length := by omega
    rw [hd, List.drop_left]
    rfl
  · intro key1 key2 hk
    simp [bcdbRead, bcdbWrite, hk]

theorem c9_from_u8_addressing_witness :
    4 ≤ ([1, 2, 3, 4] : List Nat).length ∧
    4 ≤ ([9, 1, 2, 3, 4] : List Nat).length ∧
    ([1, 2, 3, 4] : List Nat).drop ([1, 2, 3, 4].length - 4) =
      ([9, 1, 2, 3, 4] : List Nat).drop ([9, 1, 2, 3, 4].length - 4) ∧
    (from_u8 [1, 2, 3, 4] = from_u8 [9, 1, 2, 3, 4] ∧
     from_u8 ([5] ++ [0, 0, 0, 0]) = from_u8 [] ∧
     (∀ key1 key2, from_u8 key1 = from_u8 key2 →
       bcdbRead (bcdbWrite [] key1 [7]) key2 = some [7])) :=
  ⟨by decide, by decide, by decide,
   c9_from_u8_addressing [1, 2, 3, 4] [9, 1, 2, 3, 4] [5] [7] []
     (by decide) (by decide) (by decide)⟩

/-- `b"1"`, the reserved tip key. -/
def tipKey : List Nat := [49]

/-- `Blockchain::mine_block`.  The transaction check `tx.verify(&self)`
calls a `Blockchain`-taking verifier that is not present in the sources;
modelled from the spec ("verifies every supplied transaction via
verifyTransaction") as a predicate parameter `vf`, with `none` for the
panic on an invalid transaction.  `fail1`/`fail2` inject the outcomes of
the two store writes: the block is written under its hash first, the tip
key second, and a failed write returns with the in-memory tip unchanged.
-/
def mine_block (vf : Transaction → Bool) (ts : Int) (txs : List Transaction)
    (tip : List Nat) (st : List (Int × List Nat)) (fail1 fail2 : Bool) :
    Option (List Nat × List (Int × List Nat)) :=
  if txs.all vf = false then none
  else
    let b := Block.new ts txs tip
    if fail1 then some (tip, st)
    else
      let s1 := bcdbWrite st b.hash (Block.serialize b)
      if fail2 then some (tip, s1)
      else some (b.hash, bcdbWrite s1 tipKey b.hash)

/-- C7: in `mine_block` the store write of the serialized block under
its hash happens before the write of the tip key (the tip entry is added
on top of a store already holding the block entry, and when only the
first write succeeds the store holds the block but the tip key is
untouched), and if either store write fails the returned in-memory tip
still equals the previous tip — no partial commit of chain state. -/
theorem c7_mine_block_ordering (vf : Transaction → Bool) (ts : Int)
    (txs : List Transaction) (tip : List Nat) (st : List (Int × List Nat))
    (fail1 fail2 : Bool) (hv : txs.all vf = true) :
    (fail1 = true → mine_block vf ts txs tip st fail1 fail2 = some (tip, st)) ∧
    (fail1 = false → fail2 = true →
      mine_block vf ts txs tip st fail1 fail2 =
        some (tip, bcdbWrite st (Block.new ts txs tip).hash
          (Block.serialize (Block.new ts txs tip)))) ∧
    (fail1 = false → fail2 = false →
      mine_block vf ts txs tip st fail1 fail2 =
        some ((Block.new ts txs tip).hash,
          bcdbWrite
            (bcdbWrite st (Block.new ts txs tip).hash
              (Block.serialize (Block.new ts txs tip)))
            tipKey (Block.new ts txs tip).hash)) ∧
    (∀ tip2 st2, mine_block vf ts txs tip st fail1 fail2 = some (tip2, st2) →
      (fail1 = true ∨ fail2 = true) → tip2 = tip) := by
  cases fail1 <;> cases fail2 <;>
    simp [mine_block, hv]

theorem c7_mine_block_ordering_witness :
    ([] : List Transaction).all (fun _ => true) = true ∧
    ((true = true → mine_block (fun _ => true) 0 [] [] [] true false = some ([], [])) ∧
     (true = false → false = true →
       mine_block (fun _ => true) 0 [] [] [] true false =
         some ([], bcdbWrite [] (Block.new 0 [] []).hash
           (Block.serialize (Block.new 0 [] [])))) ∧
     (true = false → false = false →
       mine_block (fun _ => true) 0 [] [] [] true false =
         some ((Block.new 0 [] []).hash,
           bcdbWrite
             (bcdbWrite [] (Block.new 0 [] []).hash
               (Block.serialize (Block.new 0 [] [])))
             tipKey (Block.new 0 [] []).hash)) ∧
     (∀ tip2 st2, mine_block (fun _ => true) 0 [] [] [] true false = some (tip2, st2) →
       (true = true ∨ false = true) → tip2 = [])) :=
  ⟨rfl, c7_mine_block_ordering (fun _ => true) 0 [] [] [] true false rfl⟩
